import Mathlib

/-!
# Verification of the liboprf TOPRF core and TP-DKG message layout

This file gives a shallow embedding, over the scalar field of ristretto255
(modelled as `ZMod p` for the prime group order `p`), of the functions in
`src/toprf.c` and of the message-size constants of `src/tp-dkg.h`, and proves
the specified properties of Shamir share creation, Lagrange coefficients,
threshold evaluation and combination, and the wire-format sizes.

Since ristretto255 is a cyclic group of prime order `p`, a group element is
represented by its discrete logarithm (an element of `ZMod p`, written
additively), and the variable-base scalar multiplication
`crypto_scalarmult_ristretto255` becomes multiplication in `ZMod p`.  A
serialized 32-byte point on the wire either decodes to a group element or is
rejected as non-canonical; this is the type `RPoint` below.  The development is
parametric in the prime `p`; the concrete liboprf prime is
`2^252 + 27742317777372353535851937790883648493`.
-/

namespace Liboprf

/-- The ristretto255 scalar-field / group order used by liboprf. -/
def ristretto255_order : ℕ := 2^252 + 27742317777372353535851937790883648493

section Defs

variable (p : ℕ) [Fact p.Prime]

/-- A serialized ristretto255 point: either the canonical encoding of a group
element (identified with its discrete logarithm in `ZMod p`), or a byte string
that `crypto_core_ristretto255` rejects as non-canonical. -/
inductive RPoint where
  | valid : ZMod p → RPoint
  | invalid : RPoint
deriving DecidableEq, Repr

/-- `TOPRF_Share` from `src/toprf.c`: a packed pair of a one-byte index and a
32-byte scalar value. -/
structure TOPRF_Share where
  index : ℕ
  value : ZMod p
deriving DecidableEq, Repr

/-- `TOPRF_Part` from `src/toprf.c`: a packed pair of a one-byte index and a
32-byte serialized point, which on the wire need not be a canonical encoding. -/
structure TOPRF_Part where
  index : ℕ
  value : RPoint p
deriving DecidableEq, Repr

variable {p}

/-- The loop of `coeff` in `src/toprf.c`: walk the `peers` array, skipping
entries equal to `index` (a byte comparison), multiplying the first accumulator
(`divident`) by the peer byte and the second (`divisor`) by the difference of
the peer byte and `index`, both as scalars. -/
def coeffLoop (index : ℕ) : List ℕ → ZMod p × ZMod p → ZMod p × ZMod p
  | [], st => st
  | j :: rest, (divident, divisor) =>
    if j = index then
      coeffLoop index rest (divident, divisor)
    else
      coeffLoop index rest (divident * (j : ZMod p), divisor * ((j : ZMod p) - (index : ZMod p)))

/-- `coeff` from `src/toprf.c`: the Lagrange coefficient of `index` for the
contributing index set `peers`, computed as `divident * divisor⁻¹` where
`divident` is the product of the peer bytes different from `index` and
`divisor` the product of their differences to `index`.  The C code inverts
`divisor` with `crypto_core_ristretto255_scalar_invert` and multiplies; here
the field inverse of `ZMod p` plays that role. -/
def coeff (index : ℕ) (peers : List ℕ) : ZMod p :=
  let st := coeffLoop index peers (1, 1)
  st.2⁻¹ * st.1

/-- The share-value computation inside `toprf_create_shares` in `src/toprf.c`:
starting from the secret, for each `j < threshold - 1` add
`a j * x^(j+1)` (the C code computes `a[j] * x` and then multiplies by `x`
another `j` times), where `x` is the share index byte as a scalar. -/
def shareValue (secret : ZMod p) (threshold : ℕ) (a : ℕ → ZMod p) (i : ℕ) : ZMod p :=
  (List.range (threshold - 1)).foldl
    (fun acc j =>
      acc + (List.range j).foldl (fun tmp _ => tmp * (i : ZMod p)) (a j * (i : ZMod p)))
    secret

/-- The sharing polynomial of §4.1 of the spec, evaluated at `x`:
`f(x) = s + Σ_{m=1..t−1} a_m · x^m`, with `a_m` the random scalar `a (m-1)`.
This is the spec's definition of `f`; `shareValue_eq_specShareValue` proves
that the loop of `toprf_create_shares` computes exactly this. -/
def specShareValue (secret : ZMod p) (threshold : ℕ) (a : ℕ → ZMod p) (x : ZMod p) : ZMod p :=
  secret + ∑ j ∈ Finset.range (threshold - 1), a j * x ^ (j + 1)

/-- `toprf_create_shares` from `src/toprf.c`.  The `t-1` random scalars drawn
by `crypto_core_ristretto255_scalar_random` are passed in as the stream `a`
(the code reads `a 0 .. a (t-2)`); share `i` (for `i = 1..n`) is stored at
position `i-1` and holds index byte `i` and value `f(i)` for the polynomial
`f(x) = secret + Σ_{j<t-1} a j · x^(j+1)`.

The share-emission loop is `for(i=1;i<=n;i++)` with a `uint8_t` counter `i`.
For `n ≤ 254` it terminates after emitting shares `1..n`.  For `n = 255` the
exit condition `i <= n` can never become false (a `uint8_t` never exceeds
255): after the `i = 255` iteration the increment wraps `i` to `0`, the next
iteration writes `shares[-1]` out of bounds, and the loop runs forever — the
function never returns and no share list is ever produced.  That diverging
case is modelled as `none`. -/
def toprf_create_shares (secret : ZMod p) (n threshold : ℕ) (a : ℕ → ZMod p) :
    Option (List (TOPRF_Share p)) :=
  if n ≤ 254 then
    some ((List.range n).map (fun k => ⟨k + 1, shareValue secret threshold a (k + 1)⟩))
  else
    none

/-- `crypto_scalarmult_ristretto255` from libsodium (an external primitive of
the repository): multiplies a serialized point by a scalar; per libsodium's
documentation it fails (returns nonzero) when the point is not a canonical
encoding or when the resulting element is the identity. -/
def scalarmult (n : ZMod p) (q : RPoint p) : Option (ZMod p) :=
  match q with
  | .invalid => none
  | .valid x => if n * x = 0 then none else some (n * x)

/-- Modelled from the spec: `oprf_Evaluate` lives in `src/oprf.c`, which is not
part of this tree.  Spec §4.2: "OPRF evaluate.  Inputs: scalar key `k`, a group
element `α` (a blinded hash-to-curve of the user input).  Output `β = α^k`.
Fails if `α` is not a valid group element." -/
def oprf_Evaluate (k : ZMod p) (blinded : RPoint p) : Option (ZMod p) :=
  match blinded with
  | .invalid => none
  | .valid a => some (k * a)

/-- `toprf_Evaluate` from `src/toprf.c`: compute `lpoly = coeff self indexes`,
`kl = k.value * lpoly`, and run `oprf_Evaluate kl blinded` into the value field
of the output buffer.  The C code casts the output buffer to `TOPRF_Part` and
writes only `Z->value`; the index byte keeps whatever the caller's buffer held,
so the prior contents `Z` of the output buffer are an argument here and the
index byte of the result is `Z.index`. -/
def toprf_Evaluate (k : TOPRF_Share p) (blinded : RPoint p) (self : ℕ)
    (indexes : List ℕ) (Z : TOPRF_Part p) : Option (TOPRF_Part p) :=
  let lpoly : ZMod p := coeff self indexes
  let kl := k.value * lpoly
  match oprf_Evaluate kl blinded with
  | none => none
  | some beta => some ⟨Z.index, .valid beta⟩

/-- `toprf_thresholdmult` from `src/toprf.c`: extract the index bytes of all
responses, then for each response compute its Lagrange coefficient over those
indexes, scalar-multiply the response value by it (failing, with return value
1, when `crypto_scalarmult_ristretto255` fails), and add the results up,
starting from the all-zero point (the identity). -/
def toprf_thresholdmult (responses : List (TOPRF_Part p)) : Option (ZMod p) :=
  let indexes := responses.map TOPRF_Part.index
  responses.foldlM
    (fun acc r => (scalarmult (coeff r.index indexes) r.value).map (acc + ·)) 0

/-- `toprf_thresholdcombine` from `src/toprf.c`: starting from the all-zero
point (the identity), add every response's value field with
`crypto_core_ristretto255_add`, ignoring the index bytes and the return value
of the addition (which leaves the accumulator untouched when its operand is not
a canonical encoding). -/
def toprf_thresholdcombine (responses : List (TOPRF_Part p)) : ZMod p :=
  responses.foldl
    (fun acc r => match r.value with
      | .valid v => acc + v
      | .invalid => acc) 0

end Defs

/-! ## The TP-DKG message header and fixed message sizes (`src/tp-dkg.h`) -/

/-- libsodium: size of an Ed25519 detached signature. -/
def crypto_sign_BYTES : ℕ := 64

/-- libsodium: size of an Ed25519 public key. -/
def crypto_sign_PUBLICKEYBYTES : ℕ := 32

/-- libsodium: default output size of the generic hash. -/
def crypto_generichash_BYTES : ℕ := 32

/-- libsodium: size of a ristretto255 scalar. -/
def crypto_core_ristretto255_SCALARBYTES : ℕ := 32

/-- libsodium: size of a serialized ristretto255 point. -/
def crypto_core_ristretto255_BYTES : ℕ := 32

/-- libsodium: tag size of the xchacha20poly1305 secretbox. -/
def crypto_secretbox_xchacha20poly1305_MACBYTES : ℕ := 16

/-- libsodium: output size of HMAC-SHA-256. -/
def crypto_auth_hmacsha256_BYTES : ℕ := 32

/-- `tpdkg_sessionid_SIZE` from `src/tp-dkg.h`. -/
def tpdkg_sessionid_SIZE : ℕ := 32

/-- `TOPRF_Share_BYTES` from `src/toprf.h`: packed size of a share. -/
def TOPRF_Share_BYTES : ℕ := crypto_core_ristretto255_SCALARBYTES + 1

/-- `TOPRF_Part_BYTES` from `src/toprf.h`: packed size of a partial evaluation. -/
def TOPRF_Part_BYTES : ℕ := crypto_core_ristretto255_BYTES + 1

/-- `noise_xk_handshake3_SIZE` from `src/tp-dkg.h`. -/
def noise_xk_handshake3_SIZE : ℕ := 64

/-- The `TP_DKG_Message` header from `src/tp-dkg.h`, a packed struct of a
64-byte signature, a one-byte message number, a 4-byte little-endian length, a
one-byte sender, a one-byte recipient, an 8-byte little-endian timestamp and a
32-byte session id, followed by the payload.  Byte strings are lists of byte
values; `fromIdx`/`toIdx` stand for the C fields `from`/`to`. -/
structure TP_DKG_Message where
  sig : List ℕ
  msgno : ℕ
  len : ℕ
  fromIdx : ℕ
  toIdx : ℕ
  ts : ℕ
  sessionid : List ℕ
  data : List ℕ
deriving DecidableEq, Repr

/-- Little-endian serialization of `n` into `k` bytes. -/
def leBytes (k n : ℕ) : List ℕ := (List.range k).map (fun i => n / 256 ^ i % 256)

/-- The packed byte sequence of a `TP_DKG_Message` header, in the field order
of the struct in `src/tp-dkg.h`. -/
def headerBytes (m : TP_DKG_Message) : List ℕ :=
  m.sig ++ [m.msgno] ++ leBytes 4 m.len ++ [m.fromIdx] ++ [m.toIdx]
    ++ leBytes 8 m.ts ++ m.sessionid

/-- `sizeof(TP_DKG_Message)` for the packed struct (the flexible `data` member
contributes no size). -/
def TP_DKG_Message_SIZE : ℕ :=
  crypto_sign_BYTES + 1 + 4 + 1 + 1 + 8 + tpdkg_sessionid_SIZE

/-- `tpdkg_msg0_SIZE` from `src/tp-dkg.h`. -/
def tpdkg_msg0_SIZE : ℕ :=
  TP_DKG_Message_SIZE + crypto_generichash_BYTES + 2 + crypto_sign_PUBLICKEYBYTES

/-- `tpdkg_msg8_SIZE` from `src/tp-dkg.h`. -/
def tpdkg_msg8_SIZE : ℕ :=
  TP_DKG_Message_SIZE + noise_xk_handshake3_SIZE + TOPRF_Share_BYTES
    + crypto_secretbox_xchacha20poly1305_MACBYTES + crypto_auth_hmacsha256_BYTES

instance fact_prime_257 : Fact (Nat.Prime 257) := ⟨by norm_num⟩

/-! ## Basic characterizations of `coeff` -/

section CoeffLemmas

variable {p : ℕ} [Fact p.Prime]

lemma coeffLoop_eq (i : ℕ) (P : List ℕ) : ∀ d v : ZMod p,
    coeffLoop i P (d, v) =
      (d * ((P.filter (fun j => j ≠ i)).map (fun j : ℕ => (j : ZMod p))).prod,
       v * ((P.filter (fun j => j ≠ i)).map
          (fun j : ℕ => (j : ZMod p) - (i : ZMod p))).prod) := by
  induction P with
  | nil => intro d v; simp [coeffLoop]
  | cons j rest ih =>
    intro d v
    by_cases h : j = i
    · simp [coeffLoop, h, ih, List.filter_cons]
    · simp only [coeffLoop, h, if_false, ih, List.filter_cons, h, decide_not,
        decide_eq_true_eq]
      simp [h, mul_assoc]

/-- The closed form of `coeff`, valid for every input: the product of the
casts of the entries different from `index`, divided by the product of their
differences to `index`. -/
lemma coeff_eq (i : ℕ) (P : List ℕ) :
    coeff (p := p) i P =
      (((P.filter (fun j => j ≠ i)).map
          (fun j : ℕ => (j : ZMod p) - (i : ZMod p))).prod)⁻¹
        * ((P.filter (fun j => j ≠ i)).map (fun j : ℕ => (j : ZMod p))).prod := by
  show (coeffLoop i P (1, 1)).2⁻¹ * (coeffLoop i P (1, 1)).1 = _
  rw [coeffLoop_eq]
  simp

lemma list_prod_inv (l : List (ZMod p)) :
    (l.prod)⁻¹ = (l.map (fun x => x⁻¹)).prod := by
  induction l with
  | nil => simp
  | cons x xs ih => simp [mul_inv, ih, mul_comm]

/-- The closed form of `coeff` as a single product of per-peer factors
`j * (j - i)⁻¹`. -/
lemma coeff_eq_prod (i : ℕ) (P : List ℕ) :
    coeff (p := p) i P =
      ((P.filter (fun j => j ≠ i)).map
        (fun j : ℕ => (j : ZMod p) * ((j : ZMod p) - (i : ZMod p))⁻¹)).prod := by
  rw [coeff_eq, list_prod_inv, List.map_map, mul_comm, ← List.prod_map_mul]
  rfl

end CoeffLemmas

/-- Claim C10: `coeff` is total and silently returns a scalar for every input:
every occurrence of a peers entry equal to `index` is skipped, so repeated
occurrences of `index` itself do not change the result, and when `index` does
not occur in `peers` at all the function still returns the product over all of
`peers` of `j` times the inverse of `j - index`, with no error indication. -/
theorem claim_C10_coeff_total (p : ℕ) [Fact p.Prime] (i : ℕ) (P : List ℕ) :
    coeff (p := p) i P = coeff i (P.filter (fun j => j ≠ i))
      ∧ (i ∉ P →
          coeff (p := p) i P =
            (P.map (fun j : ℕ => (j : ZMod p) * ((j : ZMod p) - (i : ZMod p))⁻¹)).prod) := by
  constructor
  · rw [coeff_eq_prod, coeff_eq_prod, List.filter_filter]
    simp
  · intro hi
    rw [coeff_eq_prod, List.filter_eq_self.mpr]
    intro a ha
    simp only [ne_eq, decide_eq_true_eq]
    rintro rfl
    exact hi ha

/-- Witness for C10 at `p = 257`, `index = 3`, `peers = [1, 2]`. -/
theorem claim_C10_witness :
    coeff (p := 257) 3 ([1, 2].filter (fun j => j ≠ 3)) = coeff 3 [1, 2]
      ∧ coeff (p := 257) 3 [1, 2] =
          ([1, 2].map (fun j : ℕ => (j : ZMod 257) * ((j : ZMod 257) - (3 : ZMod 257))⁻¹)).prod := by
  obtain ⟨h1, h2⟩ := claim_C10_coeff_total 257 3 [1, 2]
  exact ⟨h1.symm, h2 (by decide)⟩

/-- Claim C5: for every index `i` and duplicate-free index set `P` containing
`i`, `coeff i P` equals the scalar-field product over `j ∈ P`, `j ≠ i`, of
`j * (j - i)⁻¹`, and the value depends only on `P` as a set: it is unchanged
under any permutation of the peers array. -/
theorem claim_C5_coeff_formula_and_symmetry (p : ℕ) [Fact p.Prime]
    (i : ℕ) (P : List ℕ) (hi : i ∈ P) (hnd : P.Nodup) :
    coeff (p := p) i P =
        ((P.filter (fun j => j ≠ i)).map
          (fun j : ℕ => (j : ZMod p) * ((j : ZMod p) - (i : ZMod p))⁻¹)).prod
      ∧ ∀ P' : List ℕ, P.Perm P' → coeff (p := p) i P = coeff i P' := by
  refine ⟨coeff_eq_prod i P, fun P' hperm => ?_⟩
  rw [coeff_eq_prod, coeff_eq_prod]
  refine List.Perm.prod_eq ?_
  exact (hperm.filter _).map _

/-- Witness for C5 at `p = 257`, `i = 2`, `P = [1, 2, 3]`, permuted to
`[3, 1, 2]`. -/
theorem claim_C5_witness :
    coeff (p := 257) 2 [1, 2, 3] =
        (([1, 2, 3].filter (fun j => j ≠ 2)).map
          (fun j : ℕ => (j : ZMod 257) * ((j : ZMod 257) - (2 : ZMod 257))⁻¹)).prod
      ∧ coeff (p := 257) 2 [1, 2, 3] = coeff 2 [3, 1, 2] := by
  obtain ⟨h1, h2⟩ :=
    claim_C5_coeff_formula_and_symmetry 257 2 [1, 2, 3] (by decide) (by decide)
  exact ⟨h1, h2 [3, 1, 2] (by decide)⟩

/-! ## Message envelope sizes (C8) -/

/-- Claim C8: the TP-DKG message header is exactly the packed byte sequence
`sig(64) || msgno(1) || len(4 LE) || from(1) || to(1) || ts(8 LE) ||
sessionid(32)`, totalling 111 bytes, so the fixed message sizes satisfy
`tpdkg_msg0_SIZE = 111 + 32 + 2 + 32 = 177` and
`tpdkg_msg8_SIZE = 111 + 64 + 33 + 16 + 32 = 256`. -/
theorem claim_C8_header_layout (m : TP_DKG_Message)
    (hsig : m.sig.length = crypto_sign_BYTES)
    (hsid : m.sessionid.length = tpdkg_sessionid_SIZE) :
    headerBytes m
        = m.sig ++ [m.msgno] ++ leBytes 4 m.len ++ [m.fromIdx] ++ [m.toIdx]
            ++ leBytes 8 m.ts ++ m.sessionid
      ∧ (headerBytes m).length = 111
      ∧ TP_DKG_Message_SIZE = 111
      ∧ tpdkg_msg0_SIZE = 111 + 32 + 2 + 32
      ∧ tpdkg_msg0_SIZE = 177
      ∧ tpdkg_msg8_SIZE = 111 + 64 + 33 + 16 + 32
      ∧ tpdkg_msg8_SIZE = 256 := by
  refine ⟨rfl, ?_, by decide, by decide, by decide, by decide, by decide⟩
  simp [headerBytes, leBytes, hsig, hsid, crypto_sign_BYTES, tpdkg_sessionid_SIZE]

/-- Witness for C8 on a concrete header with an all-zero signature and
session id. -/
theorem claim_C8_witness :
    headerBytes ⟨List.replicate 64 0, 1, 177, 0, 255, 42, List.replicate 32 0, []⟩
        = List.replicate 64 0 ++ [1] ++ leBytes 4 177 ++ [0] ++ [255]
            ++ leBytes 8 42 ++ List.replicate 32 0
      ∧ (headerBytes ⟨List.replicate 64 0, 1, 177, 0, 255, 42,
          List.replicate 32 0, []⟩).length = 111
      ∧ TP_DKG_Message_SIZE = 111
      ∧ tpdkg_msg0_SIZE = 111 + 32 + 2 + 32
      ∧ tpdkg_msg0_SIZE = 177
      ∧ tpdkg_msg8_SIZE = 111 + 64 + 33 + 16 + 32
      ∧ tpdkg_msg8_SIZE = 256 :=
  claim_C8_header_layout ⟨List.replicate 64 0, 1, 177, 0, 255, 42, List.replicate 32 0, []⟩
    (by decide) (by decide)

/-! ## Threshold combine (C9) -/

/-- Claim C9: `toprf_thresholdcombine` is total and never signals failure: for
every response list (including the empty one, which yields the identity, whose
canonical encoding is the 32-byte all-zero string) it writes the group sum of
the responses' value fields without validating them (each value that is a
group element is added; nothing is rejected and no error is reported — the C
function returns `void`), and the result is completely independent of the
responses' index bytes. -/
theorem claim_C9_combine_total (p : ℕ) [Fact p.Prime]
    (responses : List (TOPRF_Part p)) :
    toprf_thresholdcombine responses
        = (responses.filterMap
            (fun r => match r.value with
              | .valid v => some v
              | .invalid => none)).sum
      ∧ toprf_thresholdcombine (p := p) [] = 0
      ∧ (∀ responses' : List (TOPRF_Part p),
          responses.map TOPRF_Part.value = responses'.map TOPRF_Part.value →
            toprf_thresholdcombine responses = toprf_thresholdcombine responses') := by
  have key : ∀ (l : List (TOPRF_Part p)) (acc : ZMod p),
      l.foldl (fun acc r => match r.value with
        | .valid v => acc + v
        | .invalid => acc) acc
        = acc + (l.filterMap (fun r => match r.value with
            | .valid v => some v
            | .invalid => none)).sum := by
    intro l
    induction l with
    | nil => intro acc; simp
    | cons r rest ih =>
      intro acc
      cases hv : r.value with
      | valid v => simp [List.filterMap_cons, hv, ih, add_assoc]
      | invalid => simp [List.filterMap_cons, hv, ih]
  have h1 : ∀ l : List (TOPRF_Part p),
      toprf_thresholdcombine l
        = (l.filterMap (fun r => match r.value with
            | .valid v => some v
            | .invalid => none)).sum := by
    intro l
    rw [toprf_thresholdcombine, key]
    simp
  refine ⟨h1 responses, by simp [toprf_thresholdcombine], ?_⟩
  intro responses' hval
  rw [h1, h1]
  have : ∀ l : List (TOPRF_Part p),
      l.filterMap (fun r => match r.value with
        | .valid v => some v
        | .invalid => none)
        = (l.map TOPRF_Part.value).filterMap
            (fun v => match v with
              | .valid v => some v
              | .invalid => none) := by
    intro l
    rw [List.filterMap_map]
    rfl
  rw [this, this, hval]

/-- Witness for C9 on a two-element list (one value the identity, one generic)
and a permuted-index copy of it. -/
theorem claim_C9_witness :
    toprf_thresholdcombine (p := 257) [⟨1, .valid 5⟩, ⟨2, .valid 9⟩]
        = ([(⟨1, .valid 5⟩ : TOPRF_Part 257), ⟨2, .valid 9⟩].filterMap
            (fun r => match r.value with
              | .valid v => some v
              | .invalid => none)).sum
      ∧ toprf_thresholdcombine (p := 257) [] = 0
      ∧ toprf_thresholdcombine (p := 257) [⟨1, .valid 5⟩, ⟨2, .valid 9⟩]
          = toprf_thresholdcombine (p := 257) [⟨7, .valid 5⟩, ⟨200, .valid 9⟩] := by
  obtain ⟨h1, h2, h3⟩ := claim_C9_combine_total 257 [⟨1, .valid 5⟩, ⟨2, .valid 9⟩]
  exact ⟨h1, h2, h3 [⟨7, .valid 5⟩, ⟨200, .valid 9⟩] (by decide)⟩

/-! ## Per-shareholder evaluate (C2)

The claim states that `toprf_Evaluate` emits the pair `PartialEval(self, β)`
whose index byte equals `self`.  The C code never writes `Z->index`: the
output buffer is cast to `TOPRF_Part` and only `Z->value` is assigned, so the
index byte of the emitted partial evaluation is whatever byte the caller's
buffer happened to hold.  The spec (§4.2 "Emit `PartialEval(i, β_i)`") and the
packed output type `TOPRF_Part` make clear that the index byte was meant to be
set to `self`; leaving it uninitialized is a slip in the code. -/

/-- Claim C2 (code bug): at the concrete input `k = (1, 5)`, `α = valid 7`,
`self = 1`, `P = [1, 2]`, with an output buffer whose stale index byte is `9`,
`toprf_Evaluate` succeeds and emits value `α^(k·λ)` as the claim says, but the
emitted index byte is the stale `9`, not `self = 1`. -/
theorem claim_C2_index_byte_not_written :
    toprf_Evaluate (p := 257) ⟨1, 5⟩ (.valid 7) 1 [1, 2] ⟨9, .invalid⟩
        = some ⟨9, .valid (5 * coeff 1 [1, 2] * 7)⟩
      ∧ (toprf_Evaluate (p := 257) ⟨1, 5⟩ (.valid 7) 1 [1, 2] ⟨9, .invalid⟩).map
          TOPRF_Part.index = some 9
      ∧ (9 : ℕ) ≠ 1 := by
  refine ⟨?_, ?_, by decide⟩ <;> simp [toprf_Evaluate, oprf_Evaluate]

/-! ## Share creation (C6) -/

section ShareLemmas

variable {p : ℕ} [Fact p.Prime]

lemma innerFold_eq (x c : ZMod p) (j : ℕ) :
    (List.range j).foldl (fun tmp _ => tmp * x) c = c * x ^ j := by
  induction j generalizing c with
  | zero => simp
  | succ j ih =>
    rw [List.range_succ, List.foldl_append]
    simp [ih, mul_assoc, pow_succ]

lemma foldl_add_eq (g : ℕ → ZMod p) (l : List ℕ) (c : ZMod p) :
    l.foldl (fun acc j => acc + g j) c = c + (l.map g).sum := by
  induction l generalizing c with
  | nil => simp
  | cons j rest ih => simp [ih, add_assoc]

lemma map_range_sum (g : ℕ → ZMod p) (m : ℕ) :
    ((List.range m).map g).sum = ∑ j ∈ Finset.range m, g j := by
  induction m with
  | zero => simp
  | succ m ih => rw [List.range_succ, Finset.sum_range_succ, List.map_append, List.sum_append]; simp [ih]

/-- The loop of `toprf_create_shares` evaluates the spec's polynomial `f`. -/
lemma shareValue_eq_specShareValue (s : ZMod p) (t : ℕ) (a : ℕ → ZMod p) (i : ℕ) :
    shareValue s t a i = specShareValue s t a (i : ZMod p) := by
  rw [shareValue, specShareValue]
  have : ∀ j : ℕ,
      (List.range j).foldl (fun tmp _ => tmp * (i : ZMod p)) (a j * (i : ZMod p))
        = a j * (i : ZMod p) ^ (j + 1) := by
    intro j
    rw [innerFold_eq, pow_succ]
    ring
  calc (List.range (t - 1)).foldl
        (fun acc j =>
          acc + (List.range j).foldl (fun tmp _ => tmp * (i : ZMod p)) (a j * (i : ZMod p))) s
      = (List.range (t - 1)).foldl
          (fun acc j => acc + a j * (i : ZMod p) ^ (j + 1)) s := by
        apply List.foldl_ext
        intro acc j _
        rw [this]
    _ = s + ∑ j ∈ Finset.range (t - 1), a j * (i : ZMod p) ^ (j + 1) := by
        rw [foldl_add_eq, map_range_sum]

/-- The spec polynomial's constant term is the secret: `f(0) = s`. -/
lemma specShareValue_zero (s : ZMod p) (t : ℕ) (a : ℕ → ZMod p) :
    specShareValue s t a 0 = s := by
  rw [specShareValue]
  have : ∀ j ∈ Finset.range (t - 1), a j * (0 : ZMod p) ^ (j + 1) = 0 := by
    intro j _
    simp [zero_pow (Nat.succ_ne_zero j)]
  rw [Finset.sum_congr rfl this]
  simp

/-- For `n ≤ 254` the share-emission loop terminates and produces the list of
`n` shares. -/
lemma create_shares_of_le (s : ZMod p) (n t : ℕ) (a : ℕ → ZMod p) (hn : n ≤ 254) :
    toprf_create_shares s n t a
      = some ((List.range n).map (fun k => ⟨k + 1, shareValue s t a (k + 1)⟩)) :=
  if_pos hn

/-- For `n > 254` (i.e. `n = 255` for a `uint8_t` argument) the loop counter
wraps and the function never returns a share list. -/
lemma create_shares_none (s : ZMod p) (n t : ℕ) (a : ℕ → ZMod p) (hn : 254 < n) :
    toprf_create_shares s n t a = none :=
  if_neg (by omega)

/-- A sharing the program actually produced implies `n ≤ 254`. -/
lemma le_of_create_shares_eq_some {s : ZMod p} {n t : ℕ} {a : ℕ → ZMod p}
    {shares : List (TOPRF_Share p)}
    (hsh : toprf_create_shares s n t a = some shares) : n ≤ 254 := by
  by_contra hn
  rw [create_shares_none s n t a (by omega)] at hsh
  exact Option.noConfusion hsh

lemma create_shares_length {s : ZMod p} {n t : ℕ} {a : ℕ → ZMod p}
    {shares : List (TOPRF_Share p)}
    (hsh : toprf_create_shares s n t a = some shares) : shares.length = n := by
  rw [create_shares_of_le s n t a (le_of_create_shares_eq_some hsh)] at hsh
  rw [← Option.some.inj hsh]
  simp

lemma create_shares_getD {s : ZMod p} {n t : ℕ} {a : ℕ → ZMod p}
    {shares : List (TOPRF_Share p)}
    (hsh : toprf_create_shares s n t a = some shares) (k : ℕ) (hk : k < n) :
    shares.getD k ⟨0, 0⟩ = ⟨k + 1, shareValue s t a (k + 1)⟩ := by
  rw [create_shares_of_le s n t a (le_of_create_shares_eq_some hsh)] at hsh
  rw [← Option.some.inj hsh]
  rw [List.getD_eq_getElem?_getD]
  rw [List.getElem?_map, List.getElem?_range hk]
  rfl

end ShareLemmas

/-! ## Share creation over the claimed range (C6)

The claim asserts outputs for every `n ∈ [2,255]`.  At `n = 255` the C loop
`for(i=1;i<=n;i++)` with a `uint8_t` counter never exits: after the `i = 255`
iteration, `i++` wraps to 0, the next iteration writes `shares[-1]`, and the
function never returns — no shares are produced.  The counterexample exhibits
the missing output at `n = 255`; the amended claim restricts `n` to
`[2,254]`, where the loop terminates, and there the full claimed behaviour is
proved over the share list the program actually returns. -/

/-- Counterexample to C6 as stated: at `n = 255` (inside the claimed range
`[2,255]`), `toprf_create_shares` produces no shares at all — the `uint8_t`
loop counter wraps and the function never returns — so no output with index
bytes `1..255` and values `f(i)` exists. -/
theorem claim_C6_counterexample :
    toprf_create_shares (p := 257) 3 255 2 (fun _ => 2) = none
      ∧ (2 : ℕ) ≤ 255 ∧ (2 : ℕ) ≤ 255 := by
  exact ⟨create_shares_none 3 255 2 (fun _ => 2) (by omega), by omega, by omega⟩

/-- Claim C6, amended: for every secret `s`, `n ∈ [2,254]` and `t ∈ [2,n]`
(at `n = 255` the `uint8_t` loop counter wraps and nothing is returned),
`toprf_create_shares` reads exactly the `t-1` random scalars `a 0 .. a (t-2)`
(the output is unchanged by altering the random stream elsewhere) and the
share list it returns holds, for each `i` from 1 to `n`, a share whose index
byte is `i` and whose value is `f(i)` where
`f(x) = s + a_1·x + a_2·x² + … + a_{t−1}·x^{t−1}` — the spec polynomial
`specShareValue`, of degree at most `t-1`, with constant term `f(0) = s`. -/
theorem claim_C6_create_shares_polynomial (p : ℕ) [Fact p.Prime]
    (s : ZMod p) (n t : ℕ) (a : ℕ → ZMod p) (shares : List (TOPRF_Share p))
    (hn2 : 2 ≤ n) (hn : n ≤ 254) (ht2 : 2 ≤ t) (htn : t ≤ n)
    (hsh : toprf_create_shares s n t a = some shares) :
    shares.length = n
      ∧ (∀ k, k < n →
          shares.getD k ⟨0, 0⟩
            = ⟨k + 1, specShareValue s t a ((k + 1 : ℕ) : ZMod p)⟩)
      ∧ specShareValue s t a 0 = s
      ∧ (∀ a' : ℕ → ZMod p, (∀ j, j < t - 1 → a j = a' j) →
          toprf_create_shares s n t a = toprf_create_shares s n t a') := by
  refine ⟨create_shares_length hsh, ?_, ?_, ?_⟩
  · intro k hk
    rw [create_shares_getD hsh k hk, shareValue_eq_specShareValue]
  · exact specShareValue_zero s t a
  · intro a' ha
    have hval : ∀ k : ℕ, shareValue s t a (k + 1) = shareValue s t a' (k + 1) := by
      intro k
      rw [shareValue, shareValue]
      apply List.foldl_ext
      intro acc j hj
      rw [ha j (List.mem_range.mp hj)]
    rw [create_shares_of_le s n t a hn, create_shares_of_le s n t a' hn]
    apply congrArg
    apply List.map_congr_left
    intro k _
    rw [hval k]

/-- Witness for the amended C6 at `p = 257`, `s = 3`, `n = 3`, `t = 2`,
`a = (fun _ => 2)`: the produced list is `[(1,5),(2,7),(3,9)]`, its second
share is `(2, f(2))`, and the random stream beyond `a 0` is irrelevant. -/
theorem claim_C6_witness :
    ([(⟨1, 5⟩ : TOPRF_Share 257), ⟨2, 7⟩, ⟨3, 9⟩] : List (TOPRF_Share 257)).length = 3
      ∧ ([(⟨1, 5⟩ : TOPRF_Share 257), ⟨2, 7⟩, ⟨3, 9⟩].getD 1 ⟨0, 0⟩
          = ⟨2, specShareValue 3 2 (fun _ => 2) ((2 : ℕ) : ZMod 257)⟩)
      ∧ specShareValue (p := 257) 3 2 (fun _ => 2) 0 = 3
      ∧ toprf_create_shares (p := 257) 3 3 2 (fun _ => 2)
          = toprf_create_shares (p := 257) 3 3 2 (fun j => if j = 0 then 2 else 99) := by
  obtain ⟨h1, h2, h3, h4⟩ :=
    claim_C6_create_shares_polynomial 257 3 3 2 (fun _ => 2) [⟨1, 5⟩, ⟨2, 7⟩, ⟨3, 9⟩]
      (by decide) (by decide) (by decide) (by decide) (by decide)
  exact ⟨h1, h2 1 (by decide), h3,
    h4 (fun j => if j = 0 then 2 else 99) (by decide)⟩

/-! ## Lagrange reconstruction (C1) -/

section Reconstruction

open Polynomial

variable {p : ℕ} [Fact p.Prime]

/-- Byte indexes bounded by 255 cast injectively into `ZMod p` when `255 < p`
(the liboprf prime is far larger). -/
lemma cast_injOn_of_bounded (P : List ℕ) (hbig : 255 < p)
    (hmem : ∀ i ∈ P, 1 ≤ i ∧ i ≤ 255) :
    Set.InjOn (fun j : ℕ => (j : ZMod p)) {x : ℕ | x ∈ P} := by
  intro x hx y hy hxy
  have hxp : x < p := lt_of_le_of_lt (hmem x hx).2 hbig
  have hyp : y < p := lt_of_le_of_lt (hmem y hy).2 hbig
  have h := (ZMod.natCast_eq_natCast_iff' x y p).mp hxy
  rwa [Nat.mod_eq_of_lt hxp, Nat.mod_eq_of_lt hyp] at h

lemma cast_ne_zero_of_bounded {i : ℕ} (hbig : 255 < p) (h1 : 1 ≤ i) (h2 : i ≤ 255) :
    ((i : ℕ) : ZMod p) ≠ 0 := by
  intro h
  have hdvd := (ZMod.natCast_zmod_eq_zero_iff_dvd i p).mp h
  have := Nat.le_of_dvd (by omega) hdvd
  omega

lemma cast_ne_cast_of_bounded {x y : ℕ} (hbig : 255 < p)
    (hx : x ≤ 255) (hy : y ≤ 255) (hne : x ≠ y) :
    ((x : ℕ) : ZMod p) ≠ ((y : ℕ) : ZMod p) := by
  intro h
  have h' := (ZMod.natCast_eq_natCast_iff' x y p).mp h
  rw [Nat.mod_eq_of_lt (by omega), Nat.mod_eq_of_lt (by omega)] at h'
  exact hne h'

/-- `coeff i P`, for duplicate-free `P`, as a product over the finset
`P.toFinset.erase i`. -/
lemma coeff_finset_prod (i : ℕ) (P : List ℕ) (hnd : P.Nodup) :
    coeff (p := p) i P
      = ∏ j ∈ P.toFinset.erase i, (j : ZMod p) * ((j : ZMod p) - (i : ZMod p))⁻¹ := by
  rw [coeff_eq_prod, ← List.prod_toFinset _ (hnd.filter _)]
  congr 1
  ext j
  simp [List.mem_filter, Finset.mem_erase, and_comm]

/-- The Lagrange basis polynomial of Mathlib, evaluated at `0`, is exactly the
`coeff` product factor-for-factor. -/
lemma eval_basis_zero (S : Finset ℕ) (i : ℕ) :
    (Lagrange.basis S (fun j : ℕ => (j : ZMod p)) i).eval 0
      = ∏ j ∈ S.erase i, (j : ZMod p) * ((j : ZMod p) - (i : ZMod p))⁻¹ := by
  rw [Lagrange.basis, Polynomial.eval_prod]
  apply Finset.prod_congr rfl
  intro j hj
  rw [Lagrange.basisDivisor]
  simp only [Polynomial.eval_mul, Polynomial.eval_C, Polynomial.eval_sub, Polynomial.eval_X]
  rw [zero_sub]
  rw [show ((i : ZMod p) - (j : ZMod p)) = -((j : ZMod p) - (i : ZMod p)) by ring]
  rw [inv_neg]
  ring

/-- Core interpolation identity: for a duplicate-free index list `P` whose
casts are distinct in the field, and a polynomial `f` of degree below
`P.length`, the `coeff`-weighted sum of the values `f(i)` over `P` is `f(0)`. -/
lemma sum_coeff_mul_eval (P : List ℕ) (hnd : P.Nodup)
    (hinj : Set.InjOn (fun j : ℕ => (j : ZMod p)) {x : ℕ | x ∈ P})
    (f : Polynomial (ZMod p)) (hdeg : f.degree < P.length) :
    (P.map (fun i => coeff (p := p) i P * f.eval (i : ZMod p))).sum = f.eval 0 := by
  classical
  have hS : (P.toFinset : Set ℕ) = {x : ℕ | x ∈ P} := List.coe_toFinset P
  have hvs : Set.InjOn (fun j : ℕ => (j : ZMod p)) P.toFinset := by
    rw [hS]; exact hinj
  have hcard : P.toFinset.card = P.length := by
    rw [List.card_toFinset, hnd.dedup]
  have hdeg' : f.degree < P.toFinset.card := by rw [hcard]; exact hdeg
  have hf := Lagrange.eq_interpolate hvs hdeg'
  have h0 : f.eval 0
      = ∑ i ∈ P.toFinset,
          f.eval ((i : ℕ) : ZMod p)
            * (Lagrange.basis P.toFinset (fun j : ℕ => (j : ZMod p)) i).eval 0 := by
    conv_lhs => rw [hf]
    rw [Lagrange.interpolate_apply, Polynomial.eval_finset_sum]
    apply Finset.sum_congr rfl
    intro i _
    rw [Polynomial.eval_mul, Polynomial.eval_C]
  rw [← List.sum_toFinset _ hnd, h0]
  apply Finset.sum_congr rfl
  intro i _
  rw [eval_basis_zero, ← coeff_finset_prod i P hnd, mul_comm]

/-- The reconstruction core, shared by the scalar-domain and exponent-domain
claims: the `coeff`-weighted sum of the share values of `toprf_create_shares`
over a duplicate-free `t`-element subset `P` of `[1,n]` is the secret. -/
lemma shares_sum_eq_secret (s : ZMod p) (n t : ℕ)
    (a : ℕ → ZMod p) (P : List ℕ) (shares : List (TOPRF_Share p)) (hbig : 255 < p)
    (hsh : toprf_create_shares s n t a = some shares)
    (hn : n ≤ 255) (ht2 : 2 ≤ t) (htn : t ≤ n)
    (hmem : ∀ i ∈ P, 1 ≤ i ∧ i ≤ n) (hnd : P.Nodup) (hlen : P.length = t) :
    (P.map (fun i => coeff (p := p) i P
        * (shares.getD (i - 1) ⟨0, 0⟩).value)).sum = s := by
  classical
  set f : Polynomial (ZMod p) :=
    Polynomial.C s
      + ∑ j ∈ Finset.range (t - 1), Polynomial.C (a j) * Polynomial.X ^ (j + 1) with hfdef
  have heval : ∀ x : ZMod p, f.eval x = specShareValue s t a x := by
    intro x
    rw [hfdef, specShareValue]
    simp [Polynomial.eval_finset_sum]
  have hdeg : f.degree < (P.length : WithBot ℕ) := by
    have h1 : f.degree ≤ ((t - 1 : ℕ) : WithBot ℕ) := by
      rw [hfdef]
      apply le_trans (Polynomial.degree_add_le _ _)
      apply max_le
      · exact le_trans Polynomial.degree_C_le (by exact_mod_cast Nat.zero_le _)
      · apply le_trans (Polynomial.degree_sum_le _ _)
        apply Finset.sup_le
        intro j hj
        apply le_trans (Polynomial.degree_C_mul_X_pow_le _ _)
        exact_mod_cast Nat.succ_le_of_lt (Finset.mem_range.mp hj)
    apply lt_of_le_of_lt h1
    rw [hlen]
    exact_mod_cast Nat.sub_lt (by omega) (by omega)
  have hmap : ∀ i ∈ P,
      coeff (p := p) i P * (shares.getD (i - 1) ⟨0, 0⟩).value
        = coeff (p := p) i P * f.eval ((i : ℕ) : ZMod p) := by
    intro i hi
    obtain ⟨hi1, hi2⟩ := hmem i hi
    have hklt : i - 1 < n := by omega
    rw [create_shares_getD hsh (i - 1) hklt]
    have hsub : i - 1 + 1 = i := by omega
    rw [hsub]
    show coeff (p := p) i P * shareValue s t a i = _
    rw [shareValue_eq_specShareValue, heval]
  rw [List.map_congr_left hmap]
  rw [sum_coeff_mul_eval P hnd
    (cast_injOn_of_bounded P hbig (fun i hi => ⟨(hmem i hi).1, le_trans (hmem i hi).2 hn⟩))
    f hdeg]
  rw [heval 0, specShareValue_zero]

end Reconstruction

/-- Counterexample to C1 as stated: the claim quantifies over every
`n ∈ [2,255]`, but at `n = 255` `toprf_create_shares` produces no shares at
all — the `uint8_t` loop counter wraps, the function writes out of bounds and
never returns — so there is no list of 255 shares whose `coeff`-weighted sum
over a `t`-subset could equal the secret. -/
theorem claim_C1_counterexample :
    toprf_create_shares (p := 257) 5 255 3 (fun _ => 1) = none
      ∧ (2 : ℕ) ≤ 255 ∧ (3 : ℕ) ≤ 255 := by
  exact ⟨create_shares_none 5 255 3 (fun _ => 1) (by omega), by omega, by omega⟩

/-- Claim C1, amended: for every secret scalar `s`, every `n ∈ [2,254]` and
`t ∈ [2,n]` (at `n = 255` the `uint8_t` loop counter of `toprf_create_shares`
wraps and no shares are produced), the `n` shares the program returns, and
every duplicate-free subset `P ⊆ [1,n]` with `|P| = t`, the scalar-field sum
over `i ∈ P` of `coeff i P` times the value of share `i` equals `s`.  The
hypothesis `255 < p` holds for the liboprf prime, which exceeds `2^252`. -/
theorem claim_C1_reconstruction (p : ℕ) [Fact p.Prime] (s : ZMod p) (n t : ℕ)
    (a : ℕ → ZMod p) (P : List ℕ) (shares : List (TOPRF_Share p)) (hbig : 255 < p)
    (hn2 : 2 ≤ n) (hn : n ≤ 254) (ht2 : 2 ≤ t) (htn : t ≤ n)
    (hsh : toprf_create_shares s n t a = some shares)
    (hmem : ∀ i ∈ P, 1 ≤ i ∧ i ≤ n) (hnd : P.Nodup) (hlen : P.length = t) :
    (P.map (fun i => coeff (p := p) i P
        * (shares.getD (i - 1) ⟨0, 0⟩).value)).sum = s :=
  shares_sum_eq_secret s n t a P shares hbig hsh (by omega) ht2 htn hmem hnd hlen

/-- Witness for the amended C1 at `p = 257`, `s = 3`, `n = 3`, `t = 2`,
`a = (fun _ => 2)` (so `f(x) = 3 + 2x` and the program returns the shares
`[(1,5),(2,7),(3,9)]`), `P = [1, 3]`. -/
theorem claim_C1_witness :
    ([1, 3].map (fun i => coeff (p := 257) i [1, 3]
        * (([(⟨1, 5⟩ : TOPRF_Share 257), ⟨2, 7⟩, ⟨3, 9⟩].getD
            (i - 1) ⟨0, 0⟩).value))).sum = 3 :=
  claim_C1_reconstruction 257 3 3 2 (fun _ => 2) [1, 3] [⟨1, 5⟩, ⟨2, 7⟩, ⟨3, 9⟩]
    (by decide) (by decide) (by decide) (by decide) (by decide)
    (by decide) (by decide) (by decide) (by decide)

/-! ## Fold helpers for the threshold operations -/

section FoldHelpers

variable {p : ℕ} [Fact p.Prime] {α β : Type}

lemma option_foldlM_add_eq_some (step : α → Option (ZMod p)) (g : α → ZMod p)
    (l : List α) (hs : ∀ x ∈ l, step x = some (g x)) :
    ∀ acc : ZMod p,
      l.foldlM (fun acc x => (step x).map (acc + ·)) acc
        = some (acc + (l.map g).sum) := by
  induction l with
  | nil => intro acc; simp
  | cons x rest ih =>
    intro acc
    have hx : step x = some (g x) := hs x (List.mem_cons_self x rest)
    have hrest : ∀ y ∈ rest, step y = some (g y) :=
      fun y hy => hs y (List.mem_cons_of_mem x hy)
    rw [List.foldlM_cons, hx]
    simp only [Option.map_some']
    rw [show ((some (acc + g x) >>= fun b =>
        rest.foldlM (fun acc x => (step x).map (acc + ·)) b)
        = rest.foldlM (fun acc x => (step x).map (acc + ·)) (acc + g x)) from rfl]
    rw [ih hrest (acc + g x)]
    simp [add_assoc]

lemma option_foldlM_add_isSome (step : α → Option (ZMod p)) (l : List α) :
    ∀ acc : ZMod p,
      (l.foldlM (fun acc x => (step x).map (acc + ·)) acc).isSome
        ↔ ∀ x ∈ l, (step x).isSome := by
  induction l with
  | nil => intro acc; simp
  | cons x rest ih =>
    intro acc
    rw [List.foldlM_cons]
    cases hx : step x with
    | none => simp [hx]
    | some v =>
      simp only [Option.map_some']
      rw [show ((some (acc + v) >>= fun b =>
          rest.foldlM (fun acc x => (step x).map (acc + ·)) b)
          = rest.foldlM (fun acc x => (step x).map (acc + ·)) (acc + v)) from rfl]
      rw [ih (acc + v)]
      simp [hx]

/-- `toprf_thresholdmult` succeeds, with the sum of the per-response scalar
multiples, as soon as every `crypto_scalarmult_ristretto255` call succeeds. -/
lemma thresholdmult_eq_some (rs : List (TOPRF_Part p)) (g : TOPRF_Part p → ZMod p)
    (hs : ∀ r ∈ rs,
      scalarmult (coeff r.index (rs.map TOPRF_Part.index)) r.value = some (g r)) :
    toprf_thresholdmult rs = some ((rs.map g).sum) := by
  have h := option_foldlM_add_eq_some
    (fun r => scalarmult (p := p) (coeff r.index (rs.map TOPRF_Part.index)) r.value)
    g rs hs 0
  rw [toprf_thresholdmult]
  rw [h]
  rw [zero_add]

/-- `toprf_thresholdmult` fails exactly when some
`crypto_scalarmult_ristretto255` call fails. -/
lemma thresholdmult_eq_none_iff (rs : List (TOPRF_Part p)) :
    toprf_thresholdmult rs = none
      ↔ ∃ r ∈ rs,
          scalarmult (coeff (p := p) r.index (rs.map TOPRF_Part.index)) r.value = none := by
  have h := option_foldlM_add_isSome
    (fun r => scalarmult (p := p) (coeff r.index (rs.map TOPRF_Part.index)) r.value) rs 0
  rw [toprf_thresholdmult]
  rw [← Option.not_isSome_iff_eq_none, h]
  push_neg
  constructor
  · rintro ⟨r, hr, hns⟩
    exact ⟨r, hr, Option.not_isSome_iff_eq_none.mp hns⟩
  · rintro ⟨r, hr, hns⟩
    exact ⟨r, hr, Option.not_isSome_iff_eq_none.mpr hns⟩

/-- `toprf_thresholdcombine` on a list of parts whose values are all valid is
the plain group sum of those values. -/
lemma thresholdcombine_map_valid (l : List α) (idx : α → ℕ) (g : α → ZMod p) :
    toprf_thresholdcombine (l.map (fun x => ⟨idx x, .valid (g x)⟩)) = (l.map g).sum := by
  rw [toprf_thresholdcombine]
  suffices h : ∀ acc : ZMod p,
      ((l.map (fun x => (⟨idx x, .valid (g x)⟩ : TOPRF_Part p))).foldl
        (fun acc r => match r.value with
          | .valid v => acc + v
          | .invalid => acc) acc) = acc + (l.map g).sum by
    rw [h 0, zero_add]
  induction l with
  | nil => intro acc; simp
  | cons x rest ih =>
    intro acc
    simp only [List.map_cons, List.foldl_cons]
    rw [ih (acc + g x)]
    simp [add_assoc]

lemma mapM_eq_some (fn : α → Option β) (g : α → β) (l : List α)
    (h : ∀ x ∈ l, fn x = some (g x)) :
    l.mapM fn = some (l.map g) := by
  induction l with
  | nil => rfl
  | cons x rest ih =>
    rw [List.mapM_cons, h x (List.mem_cons_self x rest),
      ih (fun y hy => h y (List.mem_cons_of_mem x hy))]
    rfl

end FoldHelpers

section NonZero

variable {p : ℕ} [Fact p.Prime]

/-- For byte indexes in `[1,255]` (with `255 < p`), the Lagrange coefficient
is never zero: every factor of its product form is a unit. -/
lemma coeff_ne_zero (i : ℕ) (P : List ℕ) (hbig : 255 < p)
    (hi1 : 1 ≤ i) (hi2 : i ≤ 255) (hmem : ∀ j ∈ P, 1 ≤ j ∧ j ≤ 255) :
    coeff (p := p) i P ≠ 0 := by
  rw [coeff_eq_prod]
  apply List.prod_ne_zero
  intro h0
  rw [List.mem_map] at h0
  obtain ⟨j, hjf, hj0⟩ := h0
  rw [List.mem_filter] at hjf
  obtain ⟨hjP, hjne⟩ := hjf
  have hjne' : j ≠ i := by simpa using hjne
  obtain ⟨hj1, hj2⟩ := hmem j hjP
  rcases mul_eq_zero.mp hj0 with h | h
  · exact cast_ne_zero_of_bounded hbig hj1 hj2 h
  · rw [inv_eq_zero, sub_eq_zero] at h
    exact cast_ne_cast_of_bounded hbig hj2 hi2 hjne' h

end NonZero

/-- Claim C3: for every secret `s` shared by `toprf_create_shares` with
threshold `t` — that is, for every share list the program actually returns
(the hypothesis `toprf_create_shares s n t a = some shares` excludes the
`n = 255` counter wrap, where nothing is shared) — every duplicate-free
`t`-subset `P` of the share indexes and every valid point `α`: applying
`toprf_Evaluate` to each share in `P` (with index set `P`) and then
`toprf_thresholdcombine` to the resulting list of partials yields the same
group element as the single-server OPRF evaluation `α^s` with the
reconstructed key `s`.  (`Z` is the arbitrary prior content of each peer's
output buffer; `oprf_Evaluate` is modelled from spec §4.2.) -/
theorem claim_C3_toprf_equals_oprf (p : ℕ) [Fact p.Prime] (s : ZMod p) (n t : ℕ)
    (a : ℕ → ZMod p) (P : List ℕ) (shares : List (TOPRF_Share p))
    (av : ZMod p) (Z : TOPRF_Part p) (hbig : 255 < p)
    (hn2 : 2 ≤ n) (ht2 : 2 ≤ t) (htn : t ≤ n)
    (hsh : toprf_create_shares s n t a = some shares)
    (hmem : ∀ i ∈ P, 1 ≤ i ∧ i ≤ n) (hnd : P.Nodup) (hlen : P.length = t) :
    (P.mapM (fun i =>
        toprf_Evaluate (shares.getD (i - 1) ⟨0, 0⟩)
          (.valid av) i P Z)).map toprf_thresholdcombine
      = oprf_Evaluate s (.valid av) := by
  have hn : n ≤ 255 := le_trans (le_of_create_shares_eq_some hsh) (by omega)
  have heach : ∀ i ∈ P,
      toprf_Evaluate (shares.getD (i - 1) ⟨0, 0⟩) (.valid av) i P Z
        = some ⟨Z.index, .valid
            ((shares.getD (i - 1) ⟨0, 0⟩).value * coeff (p := p) i P * av)⟩ := by
    intro i _
    rfl
  rw [mapM_eq_some _ _ P heach]
  rw [Option.map_some']
  have hcomb := thresholdcombine_map_valid P (fun _ => Z.index)
    (fun i => (shares.getD (i - 1) ⟨0, 0⟩).value * coeff (p := p) i P * av)
  rw [hcomb]
  have hsum : (P.map (fun i =>
      (shares.getD (i - 1) ⟨0, 0⟩).value * coeff (p := p) i P * av)).sum
      = (P.map (fun i => coeff (p := p) i P
          * (shares.getD (i - 1) ⟨0, 0⟩).value)).sum * av := by
    rw [← List.sum_map_mul_right]
    apply congrArg
    apply List.map_congr_left
    intro i _
    ring
  rw [hsum, shares_sum_eq_secret s n t a P shares hbig hsh hn ht2 htn hmem hnd hlen]
  rfl

/-- Witness for C3 at `p = 257`, `s = 3`, `n = 3`, `t = 2`,
`a = (fun _ => 2)` (program output `[(1,5),(2,7),(3,9)]`), `P = [1, 3]`,
`α = valid 11`, stale buffer `(7, invalid)`. -/
theorem claim_C3_witness :
    ([1, 3].mapM (fun i =>
        toprf_Evaluate (([(⟨1, 5⟩ : TOPRF_Share 257), ⟨2, 7⟩, ⟨3, 9⟩].getD
            (i - 1) ⟨0, 0⟩))
          (.valid 11) i [1, 3] ⟨7, .invalid⟩)).map toprf_thresholdcombine
      = oprf_Evaluate (p := 257) 3 (.valid 11) :=
  claim_C3_toprf_equals_oprf 257 3 3 2 (fun _ => 2) [1, 3] [⟨1, 5⟩, ⟨2, 7⟩, ⟨3, 9⟩]
    11 ⟨7, .invalid⟩
    (by decide) (by decide) (by decide) (by decide) (by decide)
    (by decide) (by decide) (by decide)

/-! ## `toprf_thresholdmult` on raw parts (C4)

The claim asserts that for every valid point `α` the function returns 0 and
writes `α^s`.  This fails at `α = identity` (a canonically encoded group
element): every scalar multiple of the identity is the identity, which
`crypto_scalarmult_ristretto255` rejects, so `toprf_thresholdmult` returns 1.
The counterexample below exhibits this; the amended theorem adds the
hypotheses that `α` is not the identity and that no share value in `P` is
zero (equivalently, no raw part `α^{f(i)}` and no Lagrange multiple of one is
the identity), and then proves the claimed equation `result = α^s`. -/

/-- Counterexample to C4 as stated: with the shares of `f(x) = 3 + x`
(`s = 3`, `t = 2`, `a 0 = 1`), subset `P = [1, 2]`, and the valid point
`α = identity` (discrete log 0), the raw parts are `(i, α^{f(i)}) = (i,
identity)` and `toprf_thresholdmult` returns failure, not 0 with
`result = α^s`. -/
theorem claim_C4_counterexample :
    toprf_create_shares (p := 257) 3 3 2 (fun _ => 1) = some [⟨1, 4⟩, ⟨2, 5⟩, ⟨3, 6⟩]
      ∧ toprf_thresholdmult (p := 257)
          ([1, 2].map (fun i =>
            (⟨i, .valid (([(⟨1, 4⟩ : TOPRF_Share 257), ⟨2, 5⟩, ⟨3, 6⟩].getD
                (i - 1) ⟨0, 0⟩).value * (0 : ZMod 257))⟩ : TOPRF_Part 257)))
        = none
      ∧ none ≠ some ((3 : ZMod 257) * (0 : ZMod 257)) := by
  refine ⟨by decide, ?_, by simp⟩
  show toprf_thresholdmult (p := 257)
      [⟨1, .valid ((4 : ZMod 257) * 0)⟩, ⟨2, .valid ((5 : ZMod 257) * 0)⟩] = none
  rw [toprf_thresholdmult]
  rw [List.foldlM_cons]
  rw [show scalarmult (p := 257)
      (coeff 1 (List.map TOPRF_Part.index
        ([⟨1, .valid ((4 : ZMod 257) * 0)⟩,
          ⟨2, .valid ((5 : ZMod 257) * 0)⟩] : List (TOPRF_Part 257))))
      (.valid ((4 : ZMod 257) * 0)) = none by
    rw [scalarmult]
    simp]
  rfl

/-- Claim C4, amended: for every secret `s` shared with threshold `t` (i.e.
for every share list `toprf_create_shares` actually returns, which excludes
the diverging `n = 255` counter wrap), every duplicate-free `t`-subset `P` of
the share indexes, and every valid point `α` that is not the identity and at
which no share in `P` evaluates to the identity (no `f(i)` is zero):
`toprf_thresholdmult`, applied to the raw parts `(i, α^{f(i)})` with the
Lagrange factors not folded in, returns 0 and writes `result = α^s`,
recomputing each Lagrange coefficient from the index bytes of the response
list itself. -/
theorem claim_C4_thresholdmult_raw (p : ℕ) [Fact p.Prime] (s : ZMod p) (n t : ℕ)
    (a : ℕ → ZMod p) (P : List ℕ) (shares : List (TOPRF_Share p))
    (av : ZMod p) (hbig : 255 < p)
    (hn2 : 2 ≤ n) (ht2 : 2 ≤ t) (htn : t ≤ n)
    (hsh : toprf_create_shares s n t a = some shares)
    (hmem : ∀ i ∈ P, 1 ≤ i ∧ i ≤ n) (hnd : P.Nodup) (hlen : P.length = t)
    (hav : av ≠ 0)
    (hfz : ∀ i ∈ P, (shares.getD (i - 1) ⟨0, 0⟩).value ≠ 0) :
    toprf_thresholdmult
        (P.map (fun i =>
          (⟨i, .valid ((shares.getD (i - 1) ⟨0, 0⟩).value * av)⟩ : TOPRF_Part p)))
      = some (s * av) := by
  have hn : n ≤ 255 := le_trans (le_of_create_shares_eq_some hsh) (by omega)
  set F : ℕ → ZMod p :=
    fun i => (shares.getD (i - 1) ⟨0, 0⟩).value with hF
  set rs : List (TOPRF_Part p) := P.map (fun i => ⟨i, .valid (F i * av)⟩) with hrs
  have hidx : rs.map TOPRF_Part.index = P := by
    rw [hrs, List.map_map]
    exact List.map_id P
  have hsome : ∀ r ∈ rs,
      scalarmult (coeff r.index (rs.map TOPRF_Part.index)) r.value
        = some (coeff (p := p) r.index P
            * (match r.value with
              | .valid x => x
              | .invalid => 0)) := by
    intro r hr
    rw [hrs, List.mem_map] at hr
    obtain ⟨i, hiP, hri⟩ := hr
    subst hri
    rw [hidx]
    show scalarmult (coeff i P) (.valid (F i * av)) = some (coeff (p := p) i P * (F i * av))
    rw [scalarmult]
    rw [if_neg]
    apply mul_ne_zero
    · obtain ⟨h1, h2⟩ := hmem i hiP
      exact coeff_ne_zero i P hbig h1 (le_trans h2 hn)
        (fun j hj => ⟨(hmem j hj).1, le_trans (hmem j hj).2 hn⟩)
    · exact mul_ne_zero (hfz i hiP) hav
  rw [thresholdmult_eq_some rs _ hsome]
  have hmap : rs.map (fun r => coeff (p := p) r.index P
      * (match r.value with
        | .valid x => x
        | .invalid => 0))
      = P.map (fun i => coeff (p := p) i P * (F i * av)) := by
    rw [hrs, List.map_map]
    rfl
  rw [hmap]
  have hsum : (P.map (fun i => coeff (p := p) i P * (F i * av))).sum
      = (P.map (fun i => coeff (p := p) i P * F i)).sum * av := by
    rw [← List.sum_map_mul_right]
    apply congrArg
    apply List.map_congr_left
    intro i _
    ring
  rw [hsum, hF]
  rw [shares_sum_eq_secret s n t a P shares hbig hsh hn ht2 htn hmem hnd hlen]

/-- Witness for the amended C4 at `p = 257`, `s = 3`, `n = 3`, `t = 2`,
`a = (fun _ => 2)` (program output `[(1,5),(2,7),(3,9)]`, so `f(1) = 5`,
`f(3) = 9`), `P = [1, 3]`, `α` with discrete log 11. -/
theorem claim_C4_witness :
    toprf_thresholdmult
        ([1, 3].map (fun i =>
          (⟨i, .valid (([(⟨1, 5⟩ : TOPRF_Share 257), ⟨2, 7⟩, ⟨3, 9⟩].getD
              (i - 1) ⟨0, 0⟩).value * (11 : ZMod 257))⟩ : TOPRF_Part 257)))
      = some ((3 : ZMod 257) * 11) :=
  claim_C4_thresholdmult_raw 257 3 3 2 (fun _ => 2) [1, 3] [⟨1, 5⟩, ⟨2, 7⟩, ⟨3, 9⟩]
    11 (by decide)
    (by decide) (by decide) (by decide) (by decide) (by decide)
    (by decide) (by decide) (by decide) (by decide)

/-! ## Error behaviour of `toprf_thresholdmult` (C7)

The claim says the function returns non-zero iff some response's value is not
a canonical group element.  That is not quite what the code does: the
variable-base scalar multiplication of libsodium also rejects a successful
multiplication whose result is the identity, so a perfectly canonical value
(the identity itself, or any value whose Lagrange coefficient over the listed
index bytes is zero) also makes the function fail.  The counterexample
exhibits a list of canonical values on which the function fails; the amended
theorem characterizes failure exactly as "some scalar-multiplication call
rejects", and proves the success case under the additional non-identity
hypotheses. -/

/-- Counterexample to C7 as stated: the single response `(1, identity)` has a
canonical value field, yet `toprf_thresholdmult` fails, because the scalar
multiple of the identity is the identity, which
`crypto_scalarmult_ristretto255` rejects. -/
theorem claim_C7_counterexample :
    toprf_thresholdmult (p := 257) [⟨1, .valid 0⟩] = none
      ∧ ∀ r ∈ ([⟨1, .valid 0⟩] : List (TOPRF_Part 257)), r.value ≠ .invalid := by
  constructor
  · rw [toprf_thresholdmult, List.foldlM_cons]
    rw [show scalarmult (p := 257)
        (coeff 1 (List.map TOPRF_Part.index ([⟨1, .valid 0⟩] : List (TOPRF_Part 257))))
        (.valid 0) = none by
      rw [scalarmult]
      simp]
    rfl
  · intro r hr
    rw [List.mem_singleton] at hr
    subst hr
    simp

/-- Claim C7, amended: `toprf_thresholdmult` returns a non-zero value iff some
response is rejected by the variable-base scalar multiplication — its value
field is not a canonical group element, or the multiple of its value by its
Lagrange coefficient is the identity.  On a list whose value fields are all
valid group elements with all those multiples non-identity, it returns 0. -/
theorem claim_C7_thresholdmult_errors (p : ℕ) [Fact p.Prime]
    (rs : List (TOPRF_Part p)) :
    (toprf_thresholdmult rs = none
        ↔ ∃ r ∈ rs,
            scalarmult (coeff (p := p) r.index (rs.map TOPRF_Part.index)) r.value = none)
      ∧ ((∀ r ∈ rs, ∃ x : ZMod p, r.value = .valid x
            ∧ coeff (p := p) r.index (rs.map TOPRF_Part.index) * x ≠ 0) →
          ∃ out : ZMod p, toprf_thresholdmult rs = some out) := by
  refine ⟨thresholdmult_eq_none_iff rs, fun hval => ?_⟩
  have hsome : ∀ r ∈ rs,
      (scalarmult (coeff (p := p) r.index (rs.map TOPRF_Part.index)) r.value).isSome := by
    intro r hr
    obtain ⟨x, hx, hnz⟩ := hval r hr
    rw [hx, scalarmult]
    rw [if_neg hnz]
    rfl
  have h := (option_foldlM_add_isSome
    (fun r => scalarmult (p := p) (coeff r.index (rs.map TOPRF_Part.index)) r.value)
    rs 0).mpr hsome
  rw [toprf_thresholdmult]
  exact Option.isSome_iff_exists.mp h

/-- Witness for the amended C7 at `p = 257` on the singleton list
`[(1, valid 5)]`: no scalar multiplication fails, and the function succeeds. -/
theorem claim_C7_witness :
    (toprf_thresholdmult (p := 257) [⟨1, .valid 5⟩] = none
        ↔ ∃ r ∈ ([⟨1, .valid 5⟩] : List (TOPRF_Part 257)),
            scalarmult (coeff (p := 257) r.index
              (([⟨1, .valid 5⟩] : List (TOPRF_Part 257)).map TOPRF_Part.index)) r.value = none)
      ∧ ∃ out : ZMod 257, toprf_thresholdmult (p := 257) [⟨1, .valid 5⟩] = some out := by
  obtain ⟨h1, h2⟩ := claim_C7_thresholdmult_errors 257 [⟨1, .valid 5⟩]
  refine ⟨h1, h2 ?_⟩
  intro r hr
  rw [List.mem_singleton] at hr
  subst hr
  refine ⟨5, rfl, ?_⟩
  rw [show coeff (p := 257) (1 : ℕ)
      (List.map TOPRF_Part.index ([⟨1, .valid 5⟩] : List (TOPRF_Part 257))) = 1 by
    rw [List.map_cons, List.map_nil]
    show coeff (p := 257) 1 [1] = 1
    rw [coeff, coeffLoop]
    simp [coeffLoop]]
  decide

end Liboprf
